import Mathlib

/-!
Verification of the Sparkie credential-pool request router
(`src/sparkie/client/core.py`).

The Python module is shallowly embedded: the `SparkieClient` object state
becomes an explicit `SparkieState` record threaded through pure functions,
`time.time()` becomes an explicit integer timestamp argument (a `clock`
function from tick counters to timestamps in the retry loop, one tick per
`time.time()` call site), the Gemini backend becomes an oracle function
from (invocation index, key) to an abstract outcome, and Python exceptions
surfacing from `generate_content` become constructors of `GenerateResult`.
`random.shuffle` becomes an explicit `shuffle` parameter; theorems that
depend on it assume only that it permutes its input.

Python's `dict` (insertion ordered, unique keys) is modelled as an
association list with insert-or-overwrite (`dictInsert`) and
first-match lookup (`dictGet?`); `list.sort(key=f)` (a stable ascending
sort) is modelled as `List.insertionSort`, which is also stable and
ascending, with the key function evaluated against the pre-sort state
exactly as Python's decorate-sort-undecorate does.
-/

namespace Sparkie

/-- Python `KeyStats.__init__` (core.py lines 8-14): per-key record.
Counters are naturals; timestamps are integers (Python floats, used here
only through comparison and subtraction). -/
structure KeyStats where
  key : String
  is_active : Bool
  last_used : Int
  usage_count : Nat
  consecutive_errors : Nat
deriving DecidableEq

/-- A fresh record as built by `KeyStats(key)`: active, never used. -/
def KeyStats.init (k : String) : KeyStats :=
  { key := k, is_active := true, last_used := 0, usage_count := 0, consecutive_errors := 0 }

/-- The mutable state of a `SparkieClient`: `self._keys` (a dict, modelled
as an insertion-ordered association list) and `self._active_keys`. -/
structure SparkieState where
  keys : List (String × KeyStats)
  active_keys : List String
deriving DecidableEq

/-- Python `d[k]` as an optional lookup: first entry whose key is `k`. -/
def dictGet? (d : List (String × KeyStats)) (k : String) : Option KeyStats :=
  (d.find? (fun p => p.1 = k)).map Prod.snd

/-- Python `d[k] = v`: overwrite in place if present (keeping position),
else append. -/
def dictInsert (d : List (String × KeyStats)) (k : String) (v : KeyStats) :
    List (String × KeyStats) :=
  if (d.map Prod.fst).contains k then
    d.map (fun p => if p.1 = k then (k, v) else p)
  else
    d ++ [(k, v)]

/-- The state a `SparkieClient.__init__` starts from before its
`update_keys` call: no `_keys` attribute yet, modelled as empty. -/
def initState : SparkieState :=
  { keys := [], active_keys := [] }

/-- Method `update_keys` (core.py lines 22-42). An empty input clears the pool;
otherwise every incoming key reuses its existing record when present in
the old dict and gets a fresh `KeyStats` otherwise, then `_active_keys`
is rebuilt from the new dict's keys and shuffled. `random.shuffle` is the
explicit `shuffle` parameter. -/
def update_keys (shuffle : List String → List String) (st : SparkieState)
    (api_keys : List String) : SparkieState :=
  if api_keys = [] then
    { keys := [], active_keys := [] }
  else
    let new_keys_dict := api_keys.foldl (fun d k =>
      match dictGet? st.keys k with
      | some v => dictInsert d k v
      | none => dictInsert d k (KeyStats.init k)) []
    { keys := new_keys_dict,
      active_keys := shuffle (new_keys_dict.map Prod.fst) }

/-- One element of the `get_stats` result (core.py lines 48-54). -/
structure StatView where
  key_preview : String
  usage_count : Nat
  consecutive_errors : Nat
  last_used_timestamp : Int
  is_active : Bool
deriving DecidableEq

/-- The redacted identifier built at core.py line 49: the Python slice
of the first 10 characters of the key, followed by a literal ellipsis.
Python slicing acts on the character sequence, modelled by taking from
the string's character data. -/
def key_preview (k : String) : String :=
  String.mk (k.data.take 10 ++ String.data "...")

/-- Method `get_stats` (core.py lines 44-55): a pure projection of the
dict. -/
def get_stats (st : SparkieState) : List StatView :=
  st.keys.map (fun p =>
    { key_preview := key_preview p.1,
      usage_count := p.2.usage_count,
      consecutive_errors := p.2.consecutive_errors,
      last_used_timestamp := p.2.last_used,
      is_active := p.2.is_active })

/-- The closure `key_priority` (core.py lines 72-91) inside the
key-selection method, applied to a record: penalty for recent errors plus
usage count minus idle time. -/
def key_priority (now : Int) (stats : KeyStats) : Int :=
  let error_penalty : Int :=
    if stats.consecutive_errors > 0 ∧
        now - stats.last_used < 60 * (stats.consecutive_errors : Int) then
      1000 * (stats.consecutive_errors : Int)
    else 0
  error_penalty + (stats.usage_count : Int) - (now - stats.last_used)

/-- Priority of a key via `self._keys[k]`. Under the pool invariant
every sorted key is present; the default on a missing key stands in for
Python's `KeyError`, which cannot be raised on the states reached here. -/
def keyPriorityOf (st : SparkieState) (now : Int) (k : String) : Int :=
  key_priority now ((dictGet? st.keys k).getD (KeyStats.init k))

/-- Stamp `self._keys[key].last_used = now` (core.py line 101). -/
def stampLastUsed (d : List (String × KeyStats)) (k : String) (now : Int) :
    List (String × KeyStats) :=
  d.map (fun p => if p.1 = k then (p.1, { p.2 with last_used := now }) else p)

/-- Selection, method `_get_next_key` (core.py lines 57-103): sort
`_active_keys` in place by
`key_priority` (stable, ascending), pick the first element, stamp its
`last_used` with `now`. `none` models the `IndexError` Python would raise
on an empty `_active_keys`; `generate_content` guards against it. -/
def get_next_key (now : Int) (st : SparkieState) : Option (String × SparkieState) :=
  let sorted := List.insertionSort
    (fun a b => keyPriorityOf st now a ≤ keyPriorityOf st now b) st.active_keys
  match sorted with
  | [] => none
  | key :: rest =>
    some (key,
      { keys := stampLastUsed st.keys key now,
        active_keys := key :: rest })

/-- Failure recording, method `_handle_error` (core.py lines 105-117):
increment the key's
`consecutive_errors` and stamp `last_used` with the current time. The
branch on `ResourceExhausted` only chooses a log message. -/
def handle_error (now : Int) (st : SparkieState) (k : String) : SparkieState :=
  { st with keys := st.keys.map (fun p =>
      if p.1 = k then
        (p.1, { p.2 with
                  consecutive_errors := p.2.consecutive_errors + 1,
                  last_used := now })
      else p) }

/-- The success bookkeeping inline in `generate_content`
(core.py lines 145-146): bump `usage_count`, reset `consecutive_errors`. -/
def record_success (st : SparkieState) (k : String) : SparkieState :=
  { st with keys := st.keys.map (fun p =>
      if p.1 = k then
        (p.1, { p.2 with
                  usage_count := p.2.usage_count + 1,
                  consecutive_errors := 0 })
      else p) }

/-- Outcome of one backend invocation
(`model.generate_content_async`, core.py line 142):
success with a response, `ResourceExhausted` (429), or any other
exception. The two failure kinds differ only by the 0.5 s sleep, which has
no observable effect in this model. -/
inductive BackendResult where
  | success (response : String)
  | rateLimited
  | otherError
deriving DecidableEq

/-- What `generate_content` does for the caller: return a response, or
raise one of its two `RuntimeError`s (empty pool / all keys exhausted).
Per-attempt backend errors have no constructor here: the code absorbs
them into pool state and never re-raises them. -/
inductive GenerateResult where
  | ok (response : String)
  | emptyPool
  | exhausted
deriving DecidableEq

/-- The `while attempts < max_attempts` loop of `generate_content`
(core.py lines 129-162), structured on the remaining attempt budget.
`tick` counts `time.time()` call sites (one in `_get_next_key`, one in
`_handle_error`); `calls` counts backend invocations; `backend` may
depend on the invocation index and the key. The `none` branch mirrors
the `IndexError` Python would hit if `_active_keys` were empty, which the
entry guard rules out. -/
def generate_aux (backend : Nat → String → BackendResult) (clock : Nat → Int) :
    Nat → Nat → Nat → SparkieState → GenerateResult × SparkieState × Nat
  | 0, _, calls, st => (.exhausted, st, calls)
  | remaining + 1, tick, calls, st =>
    match get_next_key (clock tick) st with
    | none => (.exhausted, st, calls)
    | some (key, st1) =>
      match backend calls key with
      | .success r => (.ok r, record_success st1 key, calls + 1)
      | .rateLimited =>
        generate_aux backend clock remaining (tick + 2) (calls + 1)
          (handle_error (clock (tick + 1)) st1 key)
      | .otherError =>
        generate_aux backend clock remaining (tick + 2) (calls + 1)
          (handle_error (clock (tick + 1)) st1 key)

/-- Method `generate_content` (core.py lines 119-162): empty-pool guard,
then up
to `2 * len(self._active_keys)` attempts. Returns the outcome, the final
pool state, and the number of backend invocations. -/
def generate_content (backend : Nat → String → BackendResult) (clock : Nat → Int)
    (st : SparkieState) : GenerateResult × SparkieState × Nat :=
  if st.active_keys = [] then
    (.emptyPool, st, 0)
  else
    generate_aux backend clock (st.active_keys.length * 2) 0 0 st

/-- The selection priority exactly as the specification writes it
(spec §4.1): `penalty + usageCount(k) - (now - lastUsedAt(k))` with
`penalty = 1000 * consecutiveErrors(k)` when
`now - lastUsedAt(k) < 60 * consecutiveErrors(k)` and `0` otherwise.
Stated from the spec's words, to be compared with `key_priority`. -/
def prioritySpec (now : Int) (s : KeyStats) : Int :=
  (if now - s.last_used < 60 * (s.consecutive_errors : Int) then
      1000 * (s.consecutive_errors : Int)
    else 0)
  + (s.usage_count : Int) - (now - s.last_used)

/-- The pool invariant of spec §3: `_active_keys` is a permutation of the
dict's keys and the dict has no duplicate ids. (The counter lower bounds
of the spec hold by the choice of naturals for the counters.) -/
def Inv (st : SparkieState) : Prop :=
  st.active_keys.Perm (st.keys.map Prod.fst) ∧ (st.keys.map Prod.fst).Nodup

instance (st : SparkieState) : Decidable (Inv st) := by
  unfold Inv; infer_instance

/-- Rewrite every record's `is_active` flag according to `f`. Used to
state that no observable behavior of selection depends on the flags. -/
def setFlags (st : SparkieState) (f : String → Bool) : SparkieState :=
  { st with keys := st.keys.map (fun p => (p.1, { p.2 with is_active := f p.1 })) }

/-- Consecutive-error count of a key in a state (default for absent keys
never reached on the states considered). -/
def ceOf (st : SparkieState) (k : String) : Nat :=
  ((dictGet? st.keys k).getD (KeyStats.init k)).consecutive_errors

/-- How many of the given keys carry at least one recorded consecutive
error in the state. -/
def touchedCount (st : SparkieState) (ks : List String) : Nat :=
  ks.countP (fun k => decide (1 ≤ ceOf st k))

/-- Run invariant for the all-failures scenario: the active list stays a
permutation of the credential set `ks`, the dict stays exactly over `ks`,
and every record is either still untouched (no errors, never stamped) or
has failed at least once with a `last_used` stamp between `clock 0` and
`clock t`. -/
def C3Inv (clock : Nat → Int) (ks : List String) (t : Nat) (st : SparkieState) : Prop :=
  st.active_keys.Perm ks ∧
  st.keys.map Prod.fst = ks ∧
  ∀ k ∈ ks, ∃ s, dictGet? st.keys k = some s ∧ s.usage_count = 0 ∧
    ((s.consecutive_errors = 0 ∧ s.last_used = 0) ∨
     (1 ≤ s.consecutive_errors ∧ clock 0 ≤ s.last_used ∧ s.last_used ≤ clock t))

/-- The two-credential backoff scenario of spec §8: credentials `A` and
`B` start with zero stats (with `B`'s `last_used` generalized to `sB`,
covering both the initial zero and the stamps left by earlier selections
of `B`), and three consecutive failures are recorded on `A` at times
`t1`, `t2`, `t3`. -/
def threeFailState (A B : String) (sB t1 t2 t3 : Int) (l : List String) : SparkieState :=
  handle_error t3 (handle_error t2 (handle_error t1
    (SparkieState.mk
      [(A, KeyStats.init A), (B, { KeyStats.init B with last_used := sB })] l) A) A) A

/-! ### Association-list (Python dict) lemmas -/

theorem dictGet?_cons (p : String × KeyStats) (t : List (String × KeyStats)) (k : String) :
    dictGet? (p :: t) k = if p.1 = k then some p.2 else dictGet? t k := by
  by_cases h : p.1 = k <;> simp [dictGet?, List.find?_cons, h]

theorem dictGet?_mapAt (l : List (String × KeyStats)) (k j : String)
    (f : KeyStats → KeyStats) :
    dictGet? (l.map (fun p => if p.1 = k then (p.1, f p.2) else p)) j
      = if j = k then (dictGet? l j).map f else dictGet? l j := by
  induction l with
  | nil => by_cases h : j = k <;> simp [dictGet?, h]
  | cons p t ih =>
    simp only [List.map_cons]
    by_cases hj : j = k
    · subst hj
      by_cases hp : p.1 = j
      · simp [dictGet?_cons, hp]
      · simp [dictGet?_cons, hp, ih]
    · by_cases hp : p.1 = k
      · have hpj : ¬ p.1 = j := fun h => hj (by rw [← h, hp])
        have hkj : ¬ k = j := fun h => hj h.symm
        simp [dictGet?_cons, hp, hpj, hj, hkj, ih]
      · by_cases hpj : p.1 = j
        · simp [dictGet?_cons, hp, hpj, hj]
        · simp [dictGet?_cons, hp, hpj, hj, ih]

theorem mapFst_mapAt (l : List (String × KeyStats)) (k : String)
    (f : KeyStats → KeyStats) :
    (l.map (fun p => if p.1 = k then (p.1, f p.2) else p)).map Prod.fst
      = l.map Prod.fst := by
  induction l with
  | nil => rfl
  | cons p t ih => by_cases hp : p.1 = k <;> simp [hp, ih]

theorem dictGet?_isSome (d : List (String × KeyStats)) (k : String) :
    (dictGet? d k).isSome ↔ k ∈ d.map Prod.fst := by
  induction d with
  | nil => simp [dictGet?]
  | cons p t ih =>
    rw [dictGet?_cons]
    by_cases hp : p.1 = k
    · simp [hp]
    · have hkp : ¬ k = p.1 := fun h => hp h.symm
      simp [hp, hkp, ih]

theorem dictGet?_eq_none (d : List (String × KeyStats)) (k : String) :
    dictGet? d k = none ↔ k ∉ d.map Prod.fst := by
  rw [← dictGet?_isSome, Option.not_isSome_iff_eq_none]

theorem dictGet?_dictInsert (d : List (String × KeyStats)) (k j : String)
    (v : KeyStats) :
    dictGet? (dictInsert d k v) j = if j = k then some v else dictGet? d j := by
  unfold dictInsert
  by_cases hc : (d.map Prod.fst).contains k
  · rw [if_pos hc]
    have hfun : (fun p : String × KeyStats => if p.1 = k then (k, v) else p)
        = (fun p : String × KeyStats =>
            if p.1 = k then (p.1, (fun _ => v) p.2) else p) := by
      funext p
      by_cases hp : p.1 = k <;> simp [hp]
    rw [hfun]
    rw [dictGet?_mapAt d k j (fun _ => v)]
    by_cases hj : j = k
    · subst hj
      have hmem : j ∈ d.map Prod.fst := by
        simpa using hc
      obtain ⟨w, hw⟩ := Option.isSome_iff_exists.1 ((dictGet?_isSome d j).2 hmem)
      simp [hw]
    · simp [hj]
  · rw [if_neg hc]
    have hmem : k ∉ d.map Prod.fst := by
      simpa using hc
    by_cases hj : j = k
    · subst hj
      have hnone : dictGet? d j = none := (dictGet?_eq_none d j).2 hmem
      have hfind : List.find? (fun p => p.1 = j) d = none := by
        simpa only [dictGet?, Option.map_eq_none'] using hnone
      simp [dictGet?, List.find?_append, hfind, List.find?_cons]
    · have hfind : List.find? (fun p => p.1 = j) [(k, v)] = none := by
        simp [List.find?_cons, hj, Ne.symm]
      simp [dictGet?, List.find?_append, hfind, hj]

theorem mapFst_dictInsert (d : List (String × KeyStats)) (k : String) (v : KeyStats) :
    (dictInsert d k v).map Prod.fst
      = if k ∈ d.map Prod.fst then d.map Prod.fst else d.map Prod.fst ++ [k] := by
  unfold dictInsert
  by_cases hc : (d.map Prod.fst).contains k
  · rw [if_pos hc, if_pos (by simpa using hc)]
    have hfun : (fun p : String × KeyStats => if p.1 = k then (k, v) else p)
        = (fun p : String × KeyStats =>
            if p.1 = k then (p.1, (fun _ => v) p.2) else p) := by
      funext p
      by_cases hp : p.1 = k <;> simp [hp]
    rw [hfun, mapFst_mapAt d k (fun _ => v)]
  · rw [if_neg hc, if_neg (by simpa using hc)]
    simp

/-! ### The merge performed by update_keys -/

theorem update_fold_get (old : List (String × KeyStats)) (ids : List String)
    (k : String) :
    ∀ acc : List (String × KeyStats),
      dictGet? (ids.foldl (fun d i =>
          match dictGet? old i with
          | some v => dictInsert d i v
          | none => dictInsert d i (KeyStats.init i)) acc) k
        = if k ∈ ids then some ((dictGet? old k).getD (KeyStats.init k))
          else dictGet? acc k := by
  induction ids with
  | nil => intro acc; simp
  | cons i rest ih =>
    intro acc
    rw [List.foldl_cons, ih]
    by_cases hk : k ∈ rest
    · simp [hk]
    · by_cases hik : k = i
      · subst hik
        rcases h : dictGet? old k with _ | v <;>
          simp [h, hk, dictGet?_dictInsert]
      · rcases h : dictGet? old i with _ | v <;>
          simp [h, hk, hik, dictGet?_dictInsert]

theorem update_fold_nodup (old : List (String × KeyStats)) (ids : List String) :
    ∀ acc : List (String × KeyStats), (acc.map Prod.fst).Nodup →
      ((ids.foldl (fun d i =>
          match dictGet? old i with
          | some v => dictInsert d i v
          | none => dictInsert d i (KeyStats.init i)) acc).map Prod.fst).Nodup := by
  induction ids with
  | nil => intro acc h; simpa using h
  | cons i rest ih =>
    intro acc hacc
    rw [List.foldl_cons]
    have hstep : ∀ v : KeyStats, ((dictInsert acc i v).map Prod.fst).Nodup := by
      intro v
      rw [mapFst_dictInsert]
      by_cases hmem : i ∈ acc.map Prod.fst
      · simpa [hmem] using hacc
      · simp [hmem, List.nodup_append, hacc]
    rcases h : dictGet? old i with _ | v <;> simp [h] <;> exact ih _ (hstep _)

theorem update_keys_get (shuffle : List String → List String) (st : SparkieState)
    (ids : List String) (k : String) :
    dictGet? (update_keys shuffle st ids).keys k
      = if k ∈ ids then some ((dictGet? st.keys k).getD (KeyStats.init k))
        else none := by
  unfold update_keys
  by_cases hids : ids = []
  · subst hids; simp [dictGet?]
  · rw [if_neg hids]
    simpa using update_fold_get st.keys ids k []

theorem update_keys_mem (shuffle : List String → List String) (st : SparkieState)
    (ids : List String) (k : String) :
    k ∈ (update_keys shuffle st ids).keys.map Prod.fst ↔ k ∈ ids := by
  rw [← dictGet?_isSome, update_keys_get]
  by_cases hk : k ∈ ids <;> simp [hk]

theorem update_keys_nodup (shuffle : List String → List String) (st : SparkieState)
    (ids : List String) :
    ((update_keys shuffle st ids).keys.map Prod.fst).Nodup := by
  unfold update_keys
  by_cases hids : ids = []
  · subst hids; simp
  · rw [if_neg hids]
    simpa using update_fold_nodup st.keys ids [] (by simp)

theorem update_keys_active (shuffle : List String → List String) (st : SparkieState)
    (ids : List String) (h : ids ≠ []) :
    (update_keys shuffle st ids).active_keys
      = shuffle ((update_keys shuffle st ids).keys.map Prod.fst) := by
  simp [update_keys, h]

/-! ### Frame lemmas for the record-mutating operations -/

theorem record_success_get (st : SparkieState) (k j : String) :
    dictGet? (record_success st k).keys j
      = if j = k then
          (dictGet? st.keys j).map (fun s =>
            { s with usage_count := s.usage_count + 1, consecutive_errors := 0 })
        else dictGet? st.keys j :=
  dictGet?_mapAt st.keys k j
    (fun s => { s with usage_count := s.usage_count + 1, consecutive_errors := 0 })

theorem record_success_mapFst (st : SparkieState) (k : String) :
    (record_success st k).keys.map Prod.fst = st.keys.map Prod.fst :=
  mapFst_mapAt st.keys k
    (fun s => { s with usage_count := s.usage_count + 1, consecutive_errors := 0 })

theorem handle_error_get (now : Int) (st : SparkieState) (k j : String) :
    dictGet? (handle_error now st k).keys j
      = if j = k then
          (dictGet? st.keys j).map (fun s =>
            { s with consecutive_errors := s.consecutive_errors + 1, last_used := now })
        else dictGet? st.keys j :=
  dictGet?_mapAt st.keys k j
    (fun s => { s with consecutive_errors := s.consecutive_errors + 1, last_used := now })

theorem handle_error_mapFst (now : Int) (st : SparkieState) (k : String) :
    (handle_error now st k).keys.map Prod.fst = st.keys.map Prod.fst :=
  mapFst_mapAt st.keys k
    (fun s => { s with consecutive_errors := s.consecutive_errors + 1, last_used := now })

theorem stampLastUsed_get (d : List (String × KeyStats)) (k : String) (now : Int)
    (j : String) :
    dictGet? (stampLastUsed d k now) j
      = if j = k then (dictGet? d j).map (fun s => { s with last_used := now })
        else dictGet? d j :=
  dictGet?_mapAt d k j (fun s => { s with last_used := now })

theorem stampLastUsed_mapFst (d : List (String × KeyStats)) (k : String) (now : Int) :
    (stampLastUsed d k now).map Prod.fst = d.map Prod.fst :=
  mapFst_mapAt d k (fun s => { s with last_used := now })

/-! ### Claim theorems -/

/-- C2: `update_keys` keeps exactly the records whose ids occur in the
incoming sequence — an id already present keeps its record with all
counters unchanged, a new id gets a fresh zero-valued record, and every
id absent from the incoming sequence is discarded with its stats. Stated
as the per-key lookup equation (which yields the `[a,b,c]` then `[b,c,d]`
scenario of the claim by instantiation), plus the record-set membership
equation and the zero-valuedness of fresh records. -/
theorem update_keys_merge (shuffle : List String → List String) (st : SparkieState)
    (ids : List String) (k : String) :
    dictGet? (update_keys shuffle st ids).keys k
        = (if k ∈ ids then some ((dictGet? st.keys k).getD (KeyStats.init k))
           else none)
      ∧ (k ∈ (update_keys shuffle st ids).keys.map Prod.fst ↔ k ∈ ids)
      ∧ (KeyStats.init k).usage_count = 0
      ∧ (KeyStats.init k).consecutive_errors = 0 :=
  ⟨update_keys_get shuffle st ids k, update_keys_mem shuffle st ids k, rfl, rfl⟩

/-- C4: `generate_content` on an empty pool fails with the empty-pool
error immediately: the backend is never invoked (zero invocations) and
the state is returned unchanged. -/
theorem generate_empty_pool (backend : Nat → String → BackendResult)
    (clock : Nat → Int) (st : SparkieState) (h : st.active_keys = []) :
    generate_content backend clock st = (GenerateResult.emptyPool, st, 0) := by
  simp [generate_content, h]

/-- Witness for C4 at a concrete empty pool. -/
theorem generate_empty_pool_witness :
    generate_content (fun _ _ => BackendResult.otherError) (fun _ => 0)
        { keys := [], active_keys := [] }
      = (GenerateResult.emptyPool, { keys := [], active_keys := [] }, 0) :=
  generate_empty_pool (fun _ _ => BackendResult.otherError) (fun _ => 0)
    { keys := [], active_keys := [] } rfl

/-- C5: recording a success for a credential `k` present in the pool sets
its `consecutive_errors` to `0` and increments its `usage_count` by
exactly one, while every other record, the record set, and the active
order are unchanged. -/
theorem record_success_frame (st : SparkieState) (k : String) (s : KeyStats)
    (h : dictGet? st.keys k = some s) :
    dictGet? (record_success st k).keys k
        = some { s with usage_count := s.usage_count + 1, consecutive_errors := 0 }
      ∧ (∀ j, j ≠ k → dictGet? (record_success st k).keys j = dictGet? st.keys j)
      ∧ (record_success st k).keys.map Prod.fst = st.keys.map Prod.fst
      ∧ (record_success st k).active_keys = st.active_keys := by
  refine ⟨?_, ?_, record_success_mapFst st k, rfl⟩
  · rw [record_success_get]
    simp [h]
  · intro j hj
    rw [record_success_get]
    simp [hj]

/-- Witness for C5 on a concrete two-key pool. -/
theorem record_success_frame_witness :
    dictGet? (record_success
        { keys := [("alpha", KeyStats.init "alpha"), ("beta", KeyStats.init "beta")],
          active_keys := ["beta", "alpha"] } "alpha").keys "alpha"
        = some { KeyStats.init "alpha" with usage_count := 1, consecutive_errors := 0 }
      ∧ (∀ j, j ≠ "alpha" →
          dictGet? (record_success
            { keys := [("alpha", KeyStats.init "alpha"), ("beta", KeyStats.init "beta")],
              active_keys := ["beta", "alpha"] } "alpha").keys j
          = dictGet? [("alpha", KeyStats.init "alpha"), ("beta", KeyStats.init "beta")] j)
      ∧ (record_success
          { keys := [("alpha", KeyStats.init "alpha"), ("beta", KeyStats.init "beta")],
            active_keys := ["beta", "alpha"] } "alpha").keys.map Prod.fst
          = [("alpha", KeyStats.init "alpha"), ("beta", KeyStats.init "beta")].map Prod.fst
      ∧ (record_success
          { keys := [("alpha", KeyStats.init "alpha"), ("beta", KeyStats.init "beta")],
            active_keys := ["beta", "alpha"] } "alpha").active_keys
          = ["beta", "alpha"] :=
  record_success_frame
    { keys := [("alpha", KeyStats.init "alpha"), ("beta", KeyStats.init "beta")],
      active_keys := ["beta", "alpha"] } "alpha" (KeyStats.init "alpha") (by decide)

/-- C10: updating with an empty id sequence empties the pool entirely —
records and statistics are discarded, the active order becomes empty, and
a subsequent `generate_content` fails with the empty-pool error without
touching the backend. -/
theorem update_empty_clears (shuffle : List String → List String) (st : SparkieState)
    (backend : Nat → String → BackendResult) (clock : Nat → Int) :
    update_keys shuffle st [] = { keys := [], active_keys := [] }
      ∧ generate_content backend clock (update_keys shuffle st [])
          = (GenerateResult.emptyPool, update_keys shuffle st [], 0) := by
  constructor <;> simp [update_keys, generate_content]

/-- C8 counterexample: the claim says the identifier in a stat view is
never the full credential string, for every credential including ones
shorter than the prefix length. But the view's identifier is the first
10 characters plus a literal ellipsis, so for the credential
"abcdefghij..." the identifier equals the full credential string, and
for the 3-character credential "abc" the entire credential survives in
the identifier ("abc..."). -/
theorem stats_full_credential_leak :
    get_stats { keys := [("abcdefghij...", KeyStats.init "abcdefghij...")],
                active_keys := ["abcdefghij..."] }
        = [{ key_preview := "abcdefghij...", usage_count := 0, consecutive_errors := 0,
             last_used_timestamp := 0, is_active := true }]
      ∧ (key_preview "abc").data = "abc".data ++ "...".data := by
  constructor <;> decide

/-- C8 amended: `get_stats` returns one view per record exposing
`usage_count`, `consecutive_errors`, `last_used` and the active flag,
with the identifier redacted to the first 10 characters of the
credential followed by an ellipsis — a proper prefix for credentials
longer than 10 characters, but the whole credential for shorter ones —
and, being a pure projection, it mutates no pool state. -/
theorem get_stats_views (st : SparkieState) (k : String) :
    (get_stats st).length = st.keys.length
      ∧ (∀ p ∈ st.keys,
          ({ key_preview := key_preview p.1,
             usage_count := p.2.usage_count,
             consecutive_errors := p.2.consecutive_errors,
             last_used_timestamp := p.2.last_used,
             is_active := p.2.is_active } : StatView) ∈ get_stats st)
      ∧ (key_preview k).data = k.data.take 10 ++ String.data "..."
      ∧ k.data.take 10 ++ k.data.drop 10 = k.data
      ∧ (k.data.take 10).length ≤ 10 := by
  refine ⟨by simp [get_stats], ?_, rfl, List.take_append_drop 10 k.data, ?_⟩
  · intro p hp
    exact List.mem_map_of_mem _ hp
  · simp [List.length_take]

/-- Witness for C8's amended theorem on a concrete one-record pool. -/
theorem get_stats_views_witness :
    (get_stats { keys := [("alpha", KeyStats.init "alpha")],
                 active_keys := ["alpha"] }).length
        = [("alpha", KeyStats.init "alpha")].length
      ∧ (∀ p ∈ [("alpha", KeyStats.init "alpha")],
          ({ key_preview := key_preview p.1,
             usage_count := p.2.usage_count,
             consecutive_errors := p.2.consecutive_errors,
             last_used_timestamp := p.2.last_used,
             is_active := p.2.is_active } : StatView)
            ∈ get_stats { keys := [("alpha", KeyStats.init "alpha")],
                          active_keys := ["alpha"] })
      ∧ (key_preview "alpha").data = "alpha".data.take 10 ++ String.data "..."
      ∧ "alpha".data.take 10 ++ "alpha".data.drop 10 = "alpha".data
      ∧ ("alpha".data.take 10).length ≤ 10 :=
  get_stats_views { keys := [("alpha", KeyStats.init "alpha")],
                    active_keys := ["alpha"] } "alpha"

/-! ### Selection lemmas -/

theorem key_priority_eq_prioritySpec (now : Int) (s : KeyStats) :
    key_priority now s = prioritySpec now s := by
  unfold key_priority prioritySpec
  rcases Nat.eq_zero_or_pos s.consecutive_errors with h | h
  · simp [h]
  · by_cases hP : now - s.last_used < 60 * (s.consecutive_errors : Int) <;>
      simp [h, hP]

theorem insertionSort_head_min (pr : String → Int) (l : List String)
    (key : String) (rest : List String)
    (h : List.insertionSort (fun a b => pr a ≤ pr b) l = key :: rest) :
    key ∈ l ∧ ∀ y ∈ l, pr key ≤ pr y := by
  have hperm := List.perm_insertionSort (fun a b => pr a ≤ pr b) l
  rw [h] at hperm
  haveI ht : IsTotal String (fun a b => pr a ≤ pr b) :=
    ⟨fun a b => Int.le_total (pr a) (pr b)⟩
  haveI htr : IsTrans String (fun a b => pr a ≤ pr b) :=
    ⟨fun a b c hab hbc => le_trans hab hbc⟩
  have hsorted := List.sorted_insertionSort (fun a b => pr a ≤ pr b) l
  rw [h, List.sorted_cons] at hsorted
  refine ⟨hperm.mem_iff.1 (List.mem_cons_self key rest), ?_⟩
  intro y hy
  rcases List.mem_cons.1 (hperm.mem_iff.2 hy) with rfl | hmem
  · exact le_refl (pr y)
  · exact hsorted.1 y hmem

theorem insertionSort_of_active_ne_nil (st : SparkieState) (now : Int)
    (hne : st.active_keys ≠ []) :
    List.insertionSort
        (fun a b => keyPriorityOf st now a ≤ keyPriorityOf st now b)
        st.active_keys ≠ [] := by
  intro hnil
  have hperm := List.perm_insertionSort
    (fun a b => keyPriorityOf st now a ≤ keyPriorityOf st now b) st.active_keys
  rw [hnil] at hperm
  exact hne hperm.symm.eq_nil

theorem get_next_key_eq (now : Int) (st : SparkieState) (key : String)
    (rest : List String)
    (h : List.insertionSort
        (fun a b => keyPriorityOf st now a ≤ keyPriorityOf st now b)
        st.active_keys = key :: rest) :
    get_next_key now st
      = some (key, { keys := stampLastUsed st.keys key now,
                     active_keys := key :: rest }) := by
  simp [get_next_key, h, stampLastUsed]

/-- C1: on a non-empty pool, selection computes for each id in
`_active_keys` the spec's priority
`penalty + usageCount - (now - lastUsedAt)` (with
`penalty = 1000 * consecutiveErrors` inside the
`60 * consecutiveErrors` window and `0` outside), re-sorts
`_active_keys` ascending by that priority, returns the first element,
and stamps that record's `last_used` with `now`, leaving all other
records unchanged. The priorities are evaluated against the pre-call
records, as Python's decorate-sort does. -/
theorem select_sorts_by_priority (st : SparkieState) (now : Int)
    (hne : st.active_keys ≠ []) :
    ∃ key st', get_next_key now st = some (key, st')
      ∧ st'.active_keys.Perm st.active_keys
      ∧ List.Sorted (fun a b =>
          prioritySpec now ((dictGet? st.keys a).getD (KeyStats.init a))
            ≤ prioritySpec now ((dictGet? st.keys b).getD (KeyStats.init b)))
          st'.active_keys
      ∧ st'.active_keys.head? = some key
      ∧ dictGet? st'.keys key
          = (dictGet? st.keys key).map (fun s => { s with last_used := now })
      ∧ (∀ j, j ≠ key → dictGet? st'.keys j = dictGet? st.keys j) := by
  have hrel : (fun a b => keyPriorityOf st now a ≤ keyPriorityOf st now b)
      = (fun a b =>
          prioritySpec now ((dictGet? st.keys a).getD (KeyStats.init a))
            ≤ prioritySpec now ((dictGet? st.keys b).getD (KeyStats.init b))) := by
    funext a b
    rw [keyPriorityOf, keyPriorityOf, key_priority_eq_prioritySpec,
      key_priority_eq_prioritySpec]
  cases hs : List.insertionSort
      (fun a b => keyPriorityOf st now a ≤ keyPriorityOf st now b)
      st.active_keys with
  | nil => exact absurd hs (insertionSort_of_active_ne_nil st now hne)
  | cons key rest =>
    refine ⟨key, _, get_next_key_eq now st key rest hs, ?_, ?_, rfl, ?_, ?_⟩
    · have hperm := List.perm_insertionSort
        (fun a b => keyPriorityOf st now a ≤ keyPriorityOf st now b) st.active_keys
      rw [hs] at hperm
      exact hperm
    · haveI ht : IsTotal String
          (fun a b => keyPriorityOf st now a ≤ keyPriorityOf st now b) :=
        ⟨fun a b => Int.le_total _ _⟩
      haveI htr : IsTrans String
          (fun a b => keyPriorityOf st now a ≤ keyPriorityOf st now b) :=
        ⟨fun a b c hab hbc => le_trans hab hbc⟩
      have hsorted := List.sorted_insertionSort
        (fun a b => keyPriorityOf st now a ≤ keyPriorityOf st now b) st.active_keys
      rw [hs] at hsorted
      exact hrel ▸ hsorted
    · rw [stampLastUsed_get]
      simp
    · intro j hj
      rw [stampLastUsed_get]
      simp [hj]

/-- Witness for C1 on a concrete two-key pool. -/
theorem select_sorts_by_priority_witness :
    ∃ key st',
      get_next_key 5
          { keys := [("alpha", KeyStats.init "alpha"), ("beta", KeyStats.init "beta")],
            active_keys := ["beta", "alpha"] }
        = some (key, st')
      ∧ st'.active_keys.Perm ["beta", "alpha"]
      ∧ List.Sorted (fun a b =>
          prioritySpec 5 ((dictGet?
              [("alpha", KeyStats.init "alpha"), ("beta", KeyStats.init "beta")] a).getD
            (KeyStats.init a))
            ≤ prioritySpec 5 ((dictGet?
              [("alpha", KeyStats.init "alpha"), ("beta", KeyStats.init "beta")] b).getD
            (KeyStats.init b)))
          st'.active_keys
      ∧ st'.active_keys.head? = some key
      ∧ dictGet? st'.keys key
          = (dictGet? [("alpha", KeyStats.init "alpha"), ("beta", KeyStats.init "beta")]
              key).map (fun s => { s with last_used := 5 })
      ∧ (∀ j, j ≠ key →
          dictGet? st'.keys j
            = dictGet? [("alpha", KeyStats.init "alpha"), ("beta", KeyStats.init "beta")] j) :=
  select_sorts_by_priority
    { keys := [("alpha", KeyStats.init "alpha"), ("beta", KeyStats.init "beta")],
      active_keys := ["beta", "alpha"] } 5 (by decide)

/-- C6: the pool invariant — the active order is a permutation of the
record keys with no duplicates, every id in the active order has a
matching record, and the counters are non-negative (they are naturals) —
holds at initialization and is established by `update_keys` (for any
permuting shuffle) and preserved by selection, success recording, and
failure recording. Statistics reading is a pure function and has no
state to preserve. -/
theorem pool_invariants (shuffle : List String → List String) (st : SparkieState)
    (ids : List String) (now now2 : Int) (k k2 : String)
    (hsh : ∀ l, (shuffle l).Perm l) (hInv : Inv st) :
    Inv initState
      ∧ Inv (update_keys shuffle st ids)
      ∧ (∀ sel st', get_next_key now st = some (sel, st') → Inv st')
      ∧ Inv (record_success st k)
      ∧ Inv (handle_error now2 st k2)
      ∧ (∀ a ∈ st.active_keys, (dictGet? st.keys a).isSome)
      ∧ (∀ p ∈ st.keys, 0 ≤ p.2.usage_count ∧ 0 ≤ p.2.consecutive_errors) := by
  refine ⟨⟨List.Perm.refl [], List.nodup_nil⟩, ?_, ?_, ?_, ?_, ?_, ?_⟩
  · by_cases hids : ids = []
    · subst hids
      exact ⟨by simp [update_keys], by simp [update_keys]⟩
    · refine ⟨?_, update_keys_nodup shuffle st ids⟩
      rw [update_keys_active shuffle st ids hids]
      exact hsh _
  · intro sel st' h
    cases hs : List.insertionSort
        (fun a b => keyPriorityOf st now a ≤ keyPriorityOf st now b)
        st.active_keys with
    | nil =>
      simp [get_next_key, hs] at h
    | cons key rest =>
      rw [get_next_key_eq now st key rest hs, Option.some.injEq, Prod.mk.injEq] at h
      obtain ⟨rfl, rfl⟩ := h
      have hperm := List.perm_insertionSort
        (fun a b => keyPriorityOf st now a ≤ keyPriorityOf st now b) st.active_keys
      rw [hs] at hperm
      refine ⟨?_, ?_⟩
      · show (key :: rest).Perm ((stampLastUsed st.keys key now).map Prod.fst)
        rw [stampLastUsed_mapFst]
        exact hperm.trans hInv.1
      · show ((stampLastUsed st.keys key now).map Prod.fst).Nodup
        rw [stampLastUsed_mapFst]
        exact hInv.2
  · refine ⟨?_, ?_⟩
    · show st.active_keys.Perm ((record_success st k).keys.map Prod.fst)
      rw [record_success_mapFst]
      exact hInv.1
    · show ((record_success st k).keys.map Prod.fst).Nodup
      rw [record_success_mapFst]
      exact hInv.2
  · refine ⟨?_, ?_⟩
    · show st.active_keys.Perm ((handle_error now2 st k2).keys.map Prod.fst)
      rw [handle_error_mapFst]
      exact hInv.1
    · show ((handle_error now2 st k2).keys.map Prod.fst).Nodup
      rw [handle_error_mapFst]
      exact hInv.2
  · intro a ha
    exact (dictGet?_isSome st.keys a).2 (hInv.1.mem_iff.1 ha)
  · intro p hp
    exact ⟨Nat.zero_le _, Nat.zero_le _⟩

/-- Witness for C6 on a concrete pool with the identity shuffle. -/
theorem pool_invariants_witness :
    Inv initState
      ∧ Inv (update_keys (fun l => l)
          { keys := [("alpha", KeyStats.init "alpha")], active_keys := ["alpha"] }
          ["alpha", "beta"])
      ∧ (∀ sel st', get_next_key 7
            { keys := [("alpha", KeyStats.init "alpha")], active_keys := ["alpha"] }
            = some (sel, st') → Inv st')
      ∧ Inv (record_success
          { keys := [("alpha", KeyStats.init "alpha")], active_keys := ["alpha"] } "alpha")
      ∧ Inv (handle_error 9
          { keys := [("alpha", KeyStats.init "alpha")], active_keys := ["alpha"] } "alpha")
      ∧ (∀ a ∈ (SparkieState.mk [("alpha", KeyStats.init "alpha")] ["alpha"]).active_keys,
          (dictGet? [("alpha", KeyStats.init "alpha")] a).isSome)
      ∧ (∀ p ∈ [("alpha", KeyStats.init "alpha")],
          0 ≤ p.2.usage_count ∧ 0 ≤ p.2.consecutive_errors) :=
  pool_invariants (fun l => l)
    { keys := [("alpha", KeyStats.init "alpha")], active_keys := ["alpha"] }
    ["alpha", "beta"] 7 9 "alpha" "alpha"
    (fun l => List.Perm.refl l) (by decide)

/-! ### The is_active flag is inert -/

theorem dictGet?_map_snd (l : List (String × KeyStats))
    (g : String → KeyStats → KeyStats) (k : String) :
    dictGet? (l.map (fun p => (p.1, g p.1 p.2))) k = (dictGet? l k).map (g k) := by
  induction l with
  | nil => simp [dictGet?]
  | cons p t ih =>
    by_cases hp : p.1 = k
    · subst hp
      simp [dictGet?_cons]
    · simp [dictGet?_cons, hp, ih]

theorem keyPriorityOf_setFlags (st : SparkieState) (f : String → Bool) (now : Int) :
    keyPriorityOf (setFlags st f) now = keyPriorityOf st now := by
  funext k
  unfold keyPriorityOf setFlags
  rw [dictGet?_map_snd st.keys (fun a s => { s with is_active := f a }) k]
  cases h : dictGet? st.keys k <;> simp [key_priority, KeyStats.init]

theorem stampLastUsed_setFlags (d : List (String × KeyStats)) (k : String)
    (now : Int) (f : String → Bool) :
    stampLastUsed (d.map (fun p => (p.1, { p.2 with is_active := f p.1 }))) k now
      = (stampLastUsed d k now).map (fun p => (p.1, { p.2 with is_active := f p.1 })) := by
  induction d with
  | nil => rfl
  | cons p t ih =>
    by_cases hp : p.1 = k <;> simp [stampLastUsed, hp] <;>
      simpa [stampLastUsed] using ih

theorem get_next_key_setFlags (now : Int) (st : SparkieState) (f : String → Bool) :
    get_next_key now (setFlags st f)
      = (get_next_key now st).map (fun p => (p.1, setFlags p.2 f)) := by
  have hact : (setFlags st f).active_keys = st.active_keys := rfl
  unfold get_next_key
  rw [hact, keyPriorityOf_setFlags st f now]
  cases hs : List.insertionSort
      (fun a b => keyPriorityOf st now a ≤ keyPriorityOf st now b)
      st.active_keys with
  | nil => simp
  | cons key rest =>
    simp only [Option.map_some]
    refine congrArg some (Prod.ext rfl ?_)
    show SparkieState.mk (stampLastUsed (setFlags st f).keys key now) (key :: rest)
        = setFlags (SparkieState.mk (stampLastUsed st.keys key now) (key :: rest)) f
    unfold setFlags
    exact congrArg (fun d => SparkieState.mk d (key :: rest))
      (stampLastUsed_setFlags st.keys key now f)

theorem flags_mapAt (l : List (String × KeyStats)) (k : String)
    (f : KeyStats → KeyStats) (hf : ∀ s, (f s).is_active = s.is_active) :
    (l.map (fun p => if p.1 = k then (p.1, f p.2) else p)).map
        (fun p => (p.1, p.2.is_active))
      = l.map (fun p => (p.1, p.2.is_active)) := by
  induction l with
  | nil => rfl
  | cons p t ih => by_cases hp : p.1 = k <;> simp [hp, hf, ih]

/-- C9: the per-record active flag is administrative only. The selection
priority does not read it, rewriting all flags commutes with selection
(same key chosen, same order, flags carried through), success and
failure recording and selection never change any flag, `update_keys`
keeps surviving records' flags and creates new records with the flag at
`true` (its creation value), and every record key ends up in the active
order regardless of flags. -/
theorem active_flag_inert (st : SparkieState) (f : String → Bool)
    (now now2 now3 : Int) (k k2 : String) (shuffle : List String → List String)
    (ids : List String) (b : Bool) (s : KeyStats)
    (hsh : ∀ l, (shuffle l).Perm l) :
    key_priority now { s with is_active := b } = key_priority now s
      ∧ get_next_key now2 (setFlags st f)
          = (get_next_key now2 st).map (fun p => (p.1, setFlags p.2 f))
      ∧ (record_success st k).keys.map (fun p => (p.1, p.2.is_active))
          = st.keys.map (fun p => (p.1, p.2.is_active))
      ∧ (handle_error now3 st k2).keys.map (fun p => (p.1, p.2.is_active))
          = st.keys.map (fun p => (p.1, p.2.is_active))
      ∧ (∀ sel st', get_next_key now2 st = some (sel, st') →
          st'.keys.map (fun p => (p.1, p.2.is_active))
            = st.keys.map (fun p => (p.1, p.2.is_active)))
      ∧ (∀ k3 ∈ ids,
          (dictGet? (update_keys shuffle st ids).keys k3).map (fun s2 => s2.is_active)
            = some (((dictGet? st.keys k3).map (fun s2 => s2.is_active)).getD true))
      ∧ (∀ k3 ∈ (update_keys shuffle st ids).keys.map Prod.fst,
          k3 ∈ (update_keys shuffle st ids).active_keys) := by
  refine ⟨rfl, get_next_key_setFlags now2 st f, ?_, ?_, ?_, ?_, ?_⟩
  · exact flags_mapAt st.keys k
      (fun s2 => { s2 with usage_count := s2.usage_count + 1, consecutive_errors := 0 })
      (fun s2 => rfl)
  · exact flags_mapAt st.keys k2
      (fun s2 => { s2 with consecutive_errors := s2.consecutive_errors + 1, last_used := now3 })
      (fun s2 => rfl)
  · intro sel st' h
    cases hs : List.insertionSort
        (fun a b => keyPriorityOf st now2 a ≤ keyPriorityOf st now2 b)
        st.active_keys with
    | nil => simp [get_next_key, hs] at h
    | cons key rest =>
      rw [get_next_key_eq now2 st key rest hs, Option.some.injEq, Prod.mk.injEq] at h
      obtain ⟨rfl, rfl⟩ := h
      exact flags_mapAt st.keys key (fun s2 => { s2 with last_used := now2 })
        (fun s2 => rfl)
  · intro k3 hk3
    rw [update_keys_get]
    rw [if_pos hk3]
    cases h : dictGet? st.keys k3 <;> simp [h, KeyStats.init]
  · intro k3 hk3
    by_cases hids : ids = []
    · subst hids
      have hemp : update_keys shuffle st [] = { keys := [], active_keys := [] } := rfl
      rw [hemp] at hk3
      simp at hk3
    · rw [update_keys_active shuffle st ids hids]
      exact ((hsh _).mem_iff).2 hk3

/-- Witness for C9 on a concrete pool with the identity shuffle. -/
theorem active_flag_inert_witness :
    key_priority 3 { KeyStats.init "gamma" with is_active := false }
        = key_priority 3 (KeyStats.init "gamma")
      ∧ get_next_key 4 (setFlags
            (SparkieState.mk [("alpha", KeyStats.init "alpha")] ["alpha"])
            (fun _ => false))
          = (get_next_key 4
              (SparkieState.mk [("alpha", KeyStats.init "alpha")] ["alpha"])).map
            (fun p => (p.1, setFlags p.2 (fun _ => false)))
      ∧ (record_success (SparkieState.mk [("alpha", KeyStats.init "alpha")] ["alpha"])
            "alpha").keys.map (fun p => (p.1, p.2.is_active))
          = [("alpha", KeyStats.init "alpha")].map (fun p => (p.1, p.2.is_active))
      ∧ (handle_error 5 (SparkieState.mk [("alpha", KeyStats.init "alpha")] ["alpha"])
            "alpha").keys.map (fun p => (p.1, p.2.is_active))
          = [("alpha", KeyStats.init "alpha")].map (fun p => (p.1, p.2.is_active))
      ∧ (∀ sel st', get_next_key 4
            (SparkieState.mk [("alpha", KeyStats.init "alpha")] ["alpha"])
            = some (sel, st') →
          st'.keys.map (fun p => (p.1, p.2.is_active))
            = [("alpha", KeyStats.init "alpha")].map (fun p => (p.1, p.2.is_active)))
      ∧ (∀ k3 ∈ ["alpha", "beta"],
          (dictGet? (update_keys (fun l => l)
              (SparkieState.mk [("alpha", KeyStats.init "alpha")] ["alpha"])
              ["alpha", "beta"]).keys k3).map (fun s2 => s2.is_active)
            = some (((dictGet? [("alpha", KeyStats.init "alpha")] k3).map
                (fun s2 => s2.is_active)).getD true))
      ∧ (∀ k3 ∈ (update_keys (fun l => l)
            (SparkieState.mk [("alpha", KeyStats.init "alpha")] ["alpha"])
            ["alpha", "beta"]).keys.map Prod.fst,
          k3 ∈ (update_keys (fun l => l)
            (SparkieState.mk [("alpha", KeyStats.init "alpha")] ["alpha"])
            ["alpha", "beta"]).active_keys) :=
  active_flag_inert (SparkieState.mk [("alpha", KeyStats.init "alpha")] ["alpha"])
    (fun _ => false) 3 4 5 "alpha" "alpha" (fun l => l) ["alpha", "beta"] false
    (KeyStats.init "gamma") (fun l => List.Perm.refl l)

/-! ### Two-element selection -/

theorem insertionSort_pair (pr : String → Int) (x y : String) (h : pr y < pr x) :
    List.insertionSort (fun a b => pr a ≤ pr b) [x, y] = [y, x]
      ∧ List.insertionSort (fun a b => pr a ≤ pr b) [y, x] = [y, x] := by
  constructor <;>
    simp [List.insertionSort, List.orderedInsert, not_le.2 h, le_of_lt h]

/-- C7: with `A` and `B` starting from equal zero stats, after three
consecutive failures are recorded on `A` (each stamp inside the
escalating backoff window), while `now - lastUsedAt(A) < 180 = 60 * 3`
the priority of `A` strictly exceeds the priority of `B`, so every
selection deterministically returns `B` (the claim's "with high
probability" holds with probability one here) — whichever order the two
keys occupy in the active list, and whatever non-negative `last_used`
stamp `B` has picked up from earlier selections. -/
theorem backoff_prefers_healthy (A B : String) (hAB : A ≠ B)
    (t1 t2 t3 now sB : Int) (l : List String)
    (hl : l = [A, B] ∨ l = [B, A])
    (h0 : 0 ≤ t1) (h12 : t1 ≤ t2) (h23 : t2 ≤ t3) (h3now : t3 ≤ now)
    (hw1 : t2 - t1 < 60) (hw2 : t3 - t2 < 120) (hwin : now - t3 < 180)
    (hsB0 : 0 ≤ sB) (hsBnow : sB ≤ now) :
    keyPriorityOf (threeFailState A B sB t1 t2 t3 l) now B
        < keyPriorityOf (threeFailState A B sB t1 t2 t3 l) now A
      ∧ ∃ st', get_next_key now (threeFailState A B sB t1 t2 t3 l)
          = some (B, st') := by
  have hBA : ¬ (B = A) := fun h => hAB h.symm
  have hkeys : (threeFailState A B sB t1 t2 t3 l).keys
      = [(A, ⟨A, true, t3, 0, 3⟩), (B, ⟨B, true, sB, 0, 0⟩)] := by
    simp [threeFailState, handle_error, hBA, KeyStats.init]
  have hgA : dictGet? (threeFailState A B sB t1 t2 t3 l).keys A
      = some ⟨A, true, t3, 0, 3⟩ := by
    rw [hkeys]
    simp [dictGet?_cons]
  have hgB : dictGet? (threeFailState A B sB t1 t2 t3 l).keys B
      = some ⟨B, true, sB, 0, 0⟩ := by
    rw [hkeys]
    simp [dictGet?_cons, hAB, hBA]
  have hvA : keyPriorityOf (threeFailState A B sB t1 t2 t3 l) now A
      = 3000 - (now - t3) := by
    unfold keyPriorityOf key_priority
    rw [hgA]
    simp only [Option.getD_some]
    rw [if_pos]
    · norm_num
    · refine ⟨by norm_num, ?_⟩
      push_cast
      omega
  have hvB : keyPriorityOf (threeFailState A B sB t1 t2 t3 l) now B
      = -(now - sB) := by
    unfold keyPriorityOf key_priority
    rw [hgB]
    simp only [Option.getD_some]
    rw [if_neg]
    · norm_num
    · intro hcon
      exact absurd hcon.1 (by norm_num)
  have hlt : keyPriorityOf (threeFailState A B sB t1 t2 t3 l) now B
      < keyPriorityOf (threeFailState A B sB t1 t2 t3 l) now A := by
    rw [hvA, hvB]
    omega
  refine ⟨hlt, ?_⟩
  have hact : (threeFailState A B sB t1 t2 t3 l).active_keys = l := rfl
  have hpair := insertionSort_pair
    (keyPriorityOf (threeFailState A B sB t1 t2 t3 l) now) A B hlt
  rcases hl with rfl | rfl
  · exact ⟨_, get_next_key_eq now (threeFailState A B sB t1 t2 t3 [A, B]) B [A]
      (by rw [hact]; exact hpair.1)⟩
  · exact ⟨_, get_next_key_eq now (threeFailState A B sB t1 t2 t3 [B, A]) B [A]
      (by rw [hact]; exact hpair.2)⟩

/-- Witness for C7 at concrete keys and times. -/
theorem backoff_prefers_healthy_witness :
    keyPriorityOf (threeFailState "alpha" "beta" 0 10 20 30 ["alpha", "beta"]) 100 "beta"
        < keyPriorityOf (threeFailState "alpha" "beta" 0 10 20 30 ["alpha", "beta"]) 100 "alpha"
      ∧ ∃ st', get_next_key 100 (threeFailState "alpha" "beta" 0 10 20 30 ["alpha", "beta"])
          = some ("beta", st') :=
  backoff_prefers_healthy "alpha" "beta" (by decide) 10 20 30 100 0
    ["alpha", "beta"] (Or.inl rfl) (by decide) (by decide) (by decide) (by decide)
    (by decide) (by decide) (by decide) (by decide) (by decide)

/-! ### The all-failures run of generate_content -/

theorem clock_mono (clock : Nat → Int)
    (hmono : ∀ i, i < 11 → clock i ≤ clock (i + 1)) :
    ∀ p q, p ≤ q → q ≤ 11 → clock p ≤ clock q := by
  intro p q
  induction q with
  | zero =>
    intro hpq _
    have hp0 : p = 0 := Nat.le_zero.1 hpq
    rw [hp0]
  | succ n ih =>
    intro hpq hq
    rcases Nat.lt_or_ge p (n + 1) with h | h
    · have h1 : clock p ≤ clock n := ih (Nat.lt_succ_iff.1 h) (by omega)
      have h2 : clock n ≤ clock (n + 1) := hmono n (by omega)
      exact le_trans h1 h2
    · have hpn : p = n + 1 := Nat.le_antisymm hpq h
      rw [hpn]

theorem key_priority_untouched (now : Int) (s : KeyStats)
    (hce : s.consecutive_errors = 0) (hlast : s.last_used = 0) :
    key_priority now s = (s.usage_count : Int) - now := by
  rw [key_priority_eq_prioritySpec]
  unfold prioritySpec
  rw [hce, hlast]
  split <;> simp

theorem key_priority_touched_pos (now : Int) (s : KeyStats)
    (hce : 1 ≤ s.consecutive_errors) (h0 : 0 ≤ now - s.last_used)
    (hwin : now - s.last_used < 60) :
    0 < key_priority now s := by
  rw [key_priority_eq_prioritySpec]
  unfold prioritySpec
  have hc : (1 : Int) ≤ (s.consecutive_errors : Int) := by exact_mod_cast hce
  rw [if_pos (by omega)]
  omega

theorem countP_succ_of (p q : String → Bool) (sel : String) :
    ∀ l : List String, l.Nodup → sel ∈ l → q sel = true → p sel = false →
      (∀ k ∈ l, k ≠ sel → q k = p k) → l.countP q = l.countP p + 1 := by
  intro l
  induction l with
  | nil =>
    intro _ h
    cases h
  | cons x t ih =>
    intro hnd hsel hq hp hagree
    rw [List.countP_cons, List.countP_cons]
    rcases List.mem_cons.1 hsel with rfl | hmem
    · have hagree_t : ∀ k ∈ t, q k = p k := by
        intro k hk
        have hkne : k ≠ sel := fun h => (List.nodup_cons.1 hnd).1 (h ▸ hk)
        exact hagree k (List.mem_cons_of_mem _ hk) hkne
      have hcongr : t.countP q = t.countP p :=
        List.countP_congr (fun k hk => by rw [hagree_t k hk])
      rw [hq, hp, hcongr]
      simp
    · have hxne : x ≠ sel := fun h => (List.nodup_cons.1 hnd).1 (h ▸ hmem)
      have hx : q x = p x := hagree x (List.mem_cons_self x t) hxne
      have ht := ih (List.nodup_cons.1 hnd).2 hmem hq hp
        (fun k hk hkne => hagree k (List.mem_cons_of_mem x hk) hkne)
      rw [hx, ht]
      omega

theorem exists_false_of_countP_lt (p : String → Bool) (l : List String)
    (h : l.countP p < l.length) : ∃ k ∈ l, p k = false := by
  by_contra hcon
  push_neg at hcon
  have hall : ∀ a ∈ l, p a = true := by
    intro a ha
    cases hpa : p a
    · exact absurd hpa (hcon a ha)
    · rfl
  have := List.countP_eq_length.2 hall
  omega

theorem generate_aux_succ_fail (backend : Nat → String → BackendResult)
    (clock : Nat → Int) (n tick calls : Nat) (st st1 : SparkieState) (sel : String)
    (hget : get_next_key (clock tick) st = some (sel, st1))
    (hb : backend calls sel = BackendResult.rateLimited
        ∨ backend calls sel = BackendResult.otherError) :
    generate_aux backend clock (n + 1) tick calls st
      = generate_aux backend clock n (tick + 2) (calls + 1)
          (handle_error (clock (tick + 1)) st1 sel) := by
  rcases hb with hb | hb <;> simp only [generate_aux, hget, hb]

theorem generate_aux_failing (backend : Nat → String → BackendResult)
    (clock : Nat → Int)
    (hfail : ∀ n k, backend n k = BackendResult.rateLimited
        ∨ backend n k = BackendResult.otherError) :
    ∀ rem tick calls : Nat, ∀ st : SparkieState, st.active_keys ≠ [] →
      ∃ stF, generate_aux backend clock rem tick calls st
          = (GenerateResult.exhausted, stF, calls + rem)
        ∧ ∀ k s, dictGet? st.keys k = some s →
            ∃ s2, dictGet? stF.keys k = some s2
              ∧ s.consecutive_errors ≤ s2.consecutive_errors
              ∧ s2.usage_count = s.usage_count := by
  intro rem
  induction rem with
  | zero =>
    intro tick calls st hne
    exact ⟨st, by simp [generate_aux], fun k s h => ⟨s, h, le_refl _, rfl⟩⟩
  | succ n ih =>
    intro tick calls st hne
    cases hs : List.insertionSort
        (fun a b => keyPriorityOf st (clock tick) a ≤ keyPriorityOf st (clock tick) b)
        st.active_keys with
    | nil => exact absurd hs (insertionSort_of_active_ne_nil st (clock tick) hne)
    | cons sel rest =>
      have hget := get_next_key_eq (clock tick) st sel rest hs
      obtain ⟨stF, hrun, htrace⟩ := ih (tick + 2) (calls + 1)
        (handle_error (clock (tick + 1))
          (SparkieState.mk (stampLastUsed st.keys sel (clock tick)) (sel :: rest)) sel)
        (by simp [handle_error])
      refine ⟨stF, ?_, ?_⟩
      · rw [generate_aux_succ_fail backend clock n tick calls st _ sel hget
          (hfail calls sel), hrun]
        have : calls + 1 + n = calls + (n + 1) := by omega
        rw [this]
      · intro k s hk
        by_cases hksel : k = sel
        · subst hksel
          have h1 : dictGet? (stampLastUsed st.keys k (clock tick)) k
              = some { s with last_used := clock tick } := by
            rw [stampLastUsed_get]
            simp [hk]
          have h2 : dictGet? (handle_error (clock (tick + 1))
              (SparkieState.mk (stampLastUsed st.keys k (clock tick)) (k :: rest)) k).keys k
              = some (KeyStats.mk s.key s.is_active (clock (tick + 1)) s.usage_count
                  (s.consecutive_errors + 1)) := by
            rw [handle_error_get]
            simp [h1]
          obtain ⟨s2, hs2, hle, husage⟩ := htrace k _ h2
          exact ⟨s2, hs2, by simpa using Nat.le_trans (Nat.le_succ _) hle,
            by simpa using husage⟩
        · have h2 : dictGet? (handle_error (clock (tick + 1))
              (SparkieState.mk (stampLastUsed st.keys sel (clock tick)) (sel :: rest)) sel).keys k
              = some s := by
            rw [handle_error_get]
            simp only [if_neg hksel]
            rw [stampLastUsed_get]
            simp [hksel, hk]
          obtain ⟨s2, hs2, hle, husage⟩ := htrace k s h2
          exact ⟨s2, hs2, hle, husage⟩

theorem c3_step (clock : Nat → Int) (ks : List String) (hnd : ks.Nodup)
    (hmono : ∀ i, i < 11 → clock i ≤ clock (i + 1)) (hpos : 0 < clock 0)
    (hwin : clock 11 - clock 0 < 60)
    (st : SparkieState) (t i : Nat) (ht : t ≤ i) (hi : i + 1 ≤ 11)
    (hInv : C3Inv clock ks t st)
    (hunt : ∃ u ∈ ks, ceOf st u = 0) :
    ∃ sel st1, get_next_key (clock i) st = some (sel, st1)
      ∧ C3Inv clock ks (i + 1) (handle_error (clock (i + 1)) st1 sel)
      ∧ touchedCount (handle_error (clock (i + 1)) st1 sel) ks
          = touchedCount st ks + 1 := by
  obtain ⟨hact, hfst, hrec⟩ := hInv
  obtain ⟨u, hu_mem, hu_ce⟩ := hunt
  have hchain := clock_mono clock hmono
  have hi11 : i ≤ 11 := by omega
  have hci_pos : 0 < clock i := lt_of_lt_of_le hpos (hchain 0 i (Nat.zero_le i) hi11)
  have hne : st.active_keys ≠ [] := by
    intro h0
    rw [h0] at hact
    rw [hact.symm.eq_nil] at hu_mem
    exact absurd hu_mem (List.not_mem_nil u)
  have h_untouched_pr : ∀ k ∈ ks, ceOf st k = 0 →
      keyPriorityOf st (clock i) k = -(clock i) := by
    intro k hk hce
    obtain ⟨s, hs, husage, hdisj⟩ := hrec k hk
    have hsce : s.consecutive_errors = 0 := by
      unfold ceOf at hce
      rw [hs] at hce
      exact hce
    have hlast : s.last_used = 0 := by
      rcases hdisj with ⟨_, hl⟩ | ⟨h1, _, _⟩
      · exact hl
      · omega
    unfold keyPriorityOf
    rw [hs]
    simp only [Option.getD_some]
    rw [key_priority_untouched (clock i) s hsce hlast, husage]
    simp
  have h_touched_pr : ∀ k ∈ ks, ceOf st k ≠ 0 →
      0 < keyPriorityOf st (clock i) k := by
    intro k hk hce
    obtain ⟨s, hs, husage, hdisj⟩ := hrec k hk
    have hsce : s.consecutive_errors ≠ 0 := by
      unfold ceOf at hce
      rw [hs] at hce
      exact hce
    rcases hdisj with ⟨h0, _⟩ | ⟨h1, hlo, hhi⟩
    · exact absurd h0 hsce
    · unfold keyPriorityOf
      rw [hs]
      simp only [Option.getD_some]
      refine key_priority_touched_pos (clock i) s h1 ?_ ?_
      · have : s.last_used ≤ clock i := le_trans hhi (hchain t i ht hi11)
        omega
      · have hup : clock i ≤ clock 11 := hchain i 11 hi11 (le_refl 11)
        omega
  cases hs_sort : List.insertionSort
      (fun a b => keyPriorityOf st (clock i) a ≤ keyPriorityOf st (clock i) b)
      st.active_keys with
  | nil => exact absurd hs_sort (insertionSort_of_active_ne_nil st (clock i) hne)
  | cons sel rest =>
    obtain ⟨hsel_act, hsel_min⟩ :=
      insertionSort_head_min (keyPriorityOf st (clock i)) st.active_keys sel rest hs_sort
    have hselks : sel ∈ ks := hact.mem_iff.1 hsel_act
    have hsel_ce : ceOf st sel = 0 := by
      by_contra hce
      have hposs := h_touched_pr sel hselks hce
      have hu_act : u ∈ st.active_keys := hact.mem_iff.2 hu_mem
      have hmin := hsel_min u hu_act
      rw [h_untouched_pr u hu_mem hu_ce] at hmin
      omega
    obtain ⟨s_sel, hs_sel, husage_sel, _⟩ := hrec sel hselks
    have hs_sel_ce : s_sel.consecutive_errors = 0 := by
      unfold ceOf at hsel_ce
      rw [hs_sel] at hsel_ce
      exact hsel_ce
    have hget := get_next_key_eq (clock i) st sel rest hs_sort
    refine ⟨sel, _, hget, ?_, ?_⟩
    all_goals {
      have hget2_sel : dictGet? (handle_error (clock (i + 1))
          (SparkieState.mk (stampLastUsed st.keys sel (clock i)) (sel :: rest)) sel).keys sel
          = some (KeyStats.mk s_sel.key s_sel.is_active (clock (i + 1))
              s_sel.usage_count (s_sel.consecutive_errors + 1)) := by
        have h1 : dictGet? (stampLastUsed st.keys sel (clock i)) sel
            = some { s_sel with last_used := clock i } := by
          rw [stampLastUsed_get]
          simp [hs_sel]
        rw [handle_error_get]
        simp [h1]
      have hget2_other : ∀ k, k ≠ sel → dictGet? (handle_error (clock (i + 1))
          (SparkieState.mk (stampLastUsed st.keys sel (clock i)) (sel :: rest)) sel).keys k
          = dictGet? st.keys k := by
        intro k hk
        rw [handle_error_get]
        simp only [if_neg hk]
        rw [stampLastUsed_get]
        simp [hk]
      first
      | -- the run invariant carries to the post-failure state
        refine ⟨?_, ?_, ?_⟩
        · show (sel :: rest).Perm ks
          have hperm := List.perm_insertionSort
            (fun a b => keyPriorityOf st (clock i) a ≤ keyPriorityOf st (clock i) b)
            st.active_keys
          rw [hs_sort] at hperm
          exact hperm.trans hact
        · rw [handle_error_mapFst]
          show (stampLastUsed st.keys sel (clock i)).map Prod.fst = ks
          rw [stampLastUsed_mapFst]
          exact hfst
        · intro k hk
          by_cases hksel : k = sel
          · subst hksel
            refine ⟨_, hget2_sel, husage_sel, Or.inr ⟨?_, ?_, le_refl _⟩⟩
            · simp
            · exact hchain 0 (i + 1) (Nat.zero_le _) hi
          · obtain ⟨s, hs, husage, hdisj⟩ := hrec k hk
            refine ⟨s, by rw [hget2_other k hksel]; exact hs, husage, ?_⟩
            rcases hdisj with h | ⟨h1, hlo, hhi⟩
            · exact Or.inl h
            · exact Or.inr ⟨h1, hlo, le_trans hhi (hchain t (i + 1) (by omega) hi)⟩
      | -- the touched count grows by one
        refine countP_succ_of _ _ sel ks hnd hselks ?_ ?_ ?_
        · have : ceOf (handle_error (clock (i + 1))
              (SparkieState.mk (stampLastUsed st.keys sel (clock i)) (sel :: rest)) sel) sel
              = s_sel.consecutive_errors + 1 := by
            unfold ceOf
            rw [hget2_sel]
            rfl
          simp [this]
        · simp [hsel_ce]
        · intro k _ hkne
          have : ceOf (handle_error (clock (i + 1))
              (SparkieState.mk (stampLastUsed st.keys sel (clock i)) (sel :: rest)) sel) k
              = ceOf st k := by
            unfold ceOf
            rw [hget2_other k hkne]
          simp [this]
    }

/-- C3: on a freshly loaded pool of three distinct credentials (zero
stats, any shuffled active order), with a backend that fails on every
invocation and timestamps that behave like real time (positive,
non-decreasing, and the whole episode shorter than the 60-second base
backoff window), `generate_content` returns the exhaustion error after
exactly `6 = 2 * 3` backend invocations, every one of the three
credentials ends with at least one consecutive error, no credential's
usage count increased (all remain `0`), and the result is only the
exhaustion error — per-attempt backend errors have no constructor in
`GenerateResult` and cannot reach the caller. -/
theorem generate_exhausts_failing_pool (a b c : String)
    (hab : a ≠ b) (hac : a ≠ c) (hbc : b ≠ c)
    (backend : Nat → String → BackendResult) (clock : Nat → Int)
    (st0 : SparkieState)
    (hkeys : st0.keys
      = [(a, KeyStats.init a), (b, KeyStats.init b), (c, KeyStats.init c)])
    (hact : st0.active_keys.Perm [a, b, c])
    (hfail : ∀ n k, backend n k = BackendResult.rateLimited
        ∨ backend n k = BackendResult.otherError)
    (hmono : ∀ i, i < 11 → clock i ≤ clock (i + 1))
    (hpos : 0 < clock 0) (hwin : clock 11 - clock 0 < 60) :
    ∃ stF, generate_content backend clock st0
        = (GenerateResult.exhausted, stF, 6)
      ∧ ∀ k ∈ [a, b, c], ∃ s, dictGet? stF.keys k = some s
          ∧ 1 ≤ s.consecutive_errors ∧ s.usage_count = 0 := by
  have hnd : ([a, b, c] : List String).Nodup := by
    simp [hab, hac, hbc]
  have hlen : st0.active_keys.length = 3 := by
    rw [hact.length_eq]
    rfl
  have hne0 : st0.active_keys ≠ [] := by
    intro h
    rw [h] at hlen
    exact absurd hlen (by simp)
  have hInv0 : C3Inv clock [a, b, c] 0 st0 := by
    refine ⟨hact, by rw [hkeys]; rfl, ?_⟩
    intro k hk
    have hk3 : k = a ∨ k = b ∨ k = c := by simpa using hk
    rcases hk3 with rfl | rfl | rfl
    · exact ⟨KeyStats.init k, by simp [hkeys, dictGet?_cons], rfl, Or.inl ⟨rfl, rfl⟩⟩
    · exact ⟨KeyStats.init k, by simp [hkeys, dictGet?_cons, hab], rfl,
        Or.inl ⟨rfl, rfl⟩⟩
    · exact ⟨KeyStats.init k, by simp [hkeys, dictGet?_cons, hac, hbc], rfl,
        Or.inl ⟨rfl, rfl⟩⟩
  have hce0 : ∀ k ∈ [a, b, c], ceOf st0 k = 0 := by
    intro k hk
    have hk3 : k = a ∨ k = b ∨ k = c := by simpa using hk
    rcases hk3 with rfl | rfl | rfl
    · simp [ceOf, hkeys, dictGet?_cons, KeyStats.init]
    · simp [ceOf, hkeys, dictGet?_cons, hab, KeyStats.init]
    · simp [ceOf, hkeys, dictGet?_cons, hac, hbc, KeyStats.init]
  have hcount0 : touchedCount st0 [a, b, c] = 0 := by
    rw [touchedCount, List.countP_eq_zero]
    intro k hk
    simp [hce0 k hk]
  have huntOf : ∀ st' : SparkieState, touchedCount st' [a, b, c] < 3 →
      ∃ u ∈ [a, b, c], ceOf st' u = 0 := by
    intro st' hlt
    obtain ⟨k, hk, hfalse⟩ := exists_false_of_countP_lt
      (fun k => decide (1 ≤ ceOf st' k)) [a, b, c] (by simpa [touchedCount] using hlt)
    refine ⟨k, hk, ?_⟩
    have := of_decide_eq_false hfalse
    omega
  -- step 1 (select at tick 0, failure at tick 1)
  obtain ⟨sel1, st11, hget1, hInv1, hcount1⟩ :=
    c3_step clock [a, b, c] hnd hmono hpos hwin st0 0 0 (le_refl 0) (by omega)
      hInv0 (huntOf st0 (by omega))
  -- step 2 (ticks 2 and 3)
  obtain ⟨sel2, st21, hget2, hInv2, hcount2⟩ :=
    c3_step clock [a, b, c] hnd hmono hpos hwin
      (handle_error (clock (0 + 1)) st11 sel1) (0 + 1) 2 (by omega) (by omega)
      hInv1 (huntOf _ (by omega))
  -- step 3 (ticks 4 and 5)
  obtain ⟨sel3, st31, hget3, hInv3, hcount3⟩ :=
    c3_step clock [a, b, c] hnd hmono hpos hwin
      (handle_error (clock (2 + 1)) st21 sel2) (2 + 1) 4 (by omega) (by omega)
      hInv2 (huntOf _ (by omega))
  have hne6 : (handle_error (clock (4 + 1)) st31 sel3).active_keys ≠ [] := by
    intro h
    have hperm := hInv3.1
    rw [h] at hperm
    have := hperm.symm.eq_nil
    simp at this
  obtain ⟨stF, hrun, htrace⟩ :=
    generate_aux_failing backend clock hfail 3 6 3
      (handle_error (clock (4 + 1)) st31 sel3) hne6
  have hall : ∀ k ∈ [a, b, c],
      1 ≤ ceOf (handle_error (clock (4 + 1)) st31 sel3) k := by
    have hcnt : List.countP
        (fun k => decide (1 ≤ ceOf (handle_error (clock (4 + 1)) st31 sel3) k))
        [a, b, c] = ([a, b, c] : List String).length := by
      show touchedCount (handle_error (clock (4 + 1)) st31 sel3) [a, b, c] = 3
      rw [hcount3, hcount2, hcount1, hcount0]
    have hmemall := List.countP_eq_length.1 hcnt
    intro k hk
    exact of_decide_eq_true (hmemall k hk)
  refine ⟨stF, ?_, ?_⟩
  · have e1 : generate_content backend clock st0
        = generate_aux backend clock 6 0 0 st0 := by
      unfold generate_content
      rw [if_neg hne0, hlen]
    have e2 := generate_aux_succ_fail backend clock 5 0 0 st0 st11 sel1 hget1
      (hfail 0 sel1)
    have e3 := generate_aux_succ_fail backend clock 4 2 1
      (handle_error (clock (0 + 1)) st11 sel1) st21 sel2
      (by exact hget2) (hfail 1 sel2)
    have e4 := generate_aux_succ_fail backend clock 3 4 2
      (handle_error (clock (2 + 1)) st21 sel2) st31 sel3
      (by exact hget3) (hfail 2 sel3)
    calc generate_content backend clock st0
        = generate_aux backend clock 6 0 0 st0 := e1
      _ = generate_aux backend clock 5 2 1
            (handle_error (clock (0 + 1)) st11 sel1) := e2
      _ = generate_aux backend clock 4 4 2
            (handle_error (clock (2 + 1)) st21 sel2) := e3
      _ = generate_aux backend clock 3 6 3
            (handle_error (clock (4 + 1)) st31 sel3) := e4
      _ = (GenerateResult.exhausted, stF, 6) := hrun
  · intro k hk
    obtain ⟨s, hs, husage, _⟩ := hInv3.2.2 k hk
    have hce : 1 ≤ s.consecutive_errors := by
      have := hall k hk
      unfold ceOf at this
      rw [hs] at this
      exact this
    obtain ⟨s2, hs2, hle, husage2⟩ := htrace k s hs
    exact ⟨s2, hs2, le_trans hce hle, by rw [husage2, husage]⟩

/-- Witness for C3: three concrete keys, an always-rate-limited backend,
and a clock advancing one second per timestamp read. -/
theorem generate_exhausts_failing_pool_witness :
    ∃ stF, generate_content (fun _ _ => BackendResult.rateLimited)
        (fun n => (n : Int) + 1)
        (SparkieState.mk
          [("alpha", KeyStats.init "alpha"), ("beta", KeyStats.init "beta"),
           ("gamma", KeyStats.init "gamma")]
          ["gamma", "alpha", "beta"])
        = (GenerateResult.exhausted, stF, 6)
      ∧ ∀ k ∈ ["alpha", "beta", "gamma"], ∃ s, dictGet? stF.keys k = some s
          ∧ 1 ≤ s.consecutive_errors ∧ s.usage_count = 0 :=
  generate_exhausts_failing_pool "alpha" "beta" "gamma"
    (by decide) (by decide) (by decide)
    (fun _ _ => BackendResult.rateLimited) (fun n => (n : Int) + 1)
    (SparkieState.mk
      [("alpha", KeyStats.init "alpha"), ("beta", KeyStats.init "beta"),
       ("gamma", KeyStats.init "gamma")]
      ["gamma", "alpha", "beta"])
    rfl (by decide) (fun _ _ => Or.inl rfl)
    (fun i _ => by push_cast; omega) (by decide) (by decide)

end Sparkie
